import Mathlib

/-! Argument parser of the Jenkins slash-command plugin.

A shallow embedding of `parseBuildParameters`, `isNumeric`, `pad` and `unpad`
from `server/utils.go`, together with the pieces of Go's `strings` and
`strconv` packages they call.

A Go string is modelled as the list of its characters (`Str`).  Every
operation used by the parser only compares against the ASCII characters
`"`, `=`, space, `+`, `-` and the decimal digits, so nothing depends on how
the remaining characters are encoded.

The function assigns into the caller's slice (`parameters[0] = ...`), so the
embedding threads the slice through as explicit state and reports its final
contents next to the four returned values.
-/

namespace Jenkins

/-- A Go string, as its sequence of characters. -/
abbrev Str := List Char

/-- The double-quote character. -/
def quoteChar : Char := Char.ofNat 34

/-- The character `=`. -/
def eqChar : Char := Char.ofNat 61

/-- The one-character string holding a double-quote. -/
def quote : Str := [quoteChar]

/-- The one-character string `=`. -/
def eqSign : Str := [eqChar]

/-- The one-character string holding a blank. -/
def space : Str := [Char.ofNat 32]

/-! ## The `strings` package -/

/-- Go `strings.HasPrefix`. -/
def hasPrefix (s pre : Str) : Bool :=
  s.length ≥ pre.length && s.take pre.length == pre

/-- Go `strings.HasSuffix`. -/
def hasSuffix (s suf : Str) : Bool :=
  s.length ≥ suf.length && s.drop (s.length - suf.length) == suf

/-- Go `strings.TrimPrefix`: `s` without the leading `pre`, or `s` itself. -/
def trimPrefix (s pre : Str) : Str :=
  if hasPrefix s pre then s.drop pre.length else s

/-- Go `strings.TrimSuffix`: `s` without the trailing `suf`, or `s` itself. -/
def trimSuffix (s suf : Str) : Str :=
  if hasSuffix s suf then s.take (s.length - suf.length) else s

/-- Go `strings.Index`: the offset of the first occurrence of `sub` in `s`. -/
def index : Str → Str → Option Nat
  | [], sub => if sub = [] then some 0 else none
  | c :: cs, sub =>
    if hasPrefix (c :: cs) sub then some 0
    else (index cs sub).map (· + 1)

/-- Go `strings.Contains`. -/
def contains (s sub : Str) : Bool := (index s sub).isSome

/-- Go `strings.SplitN` for a non-empty separator and a count `n ≥ 0`:
at most `n` pieces, the last one holding the unsplit remainder. -/
def splitN (s sep : Str) : Nat → List Str
  | 0 => []
  | 1 => [s]
  | n + 2 =>
    match index s sep with
    | none => [s]
    | some m => s.take m :: splitN (s.drop (m + sep.length)) sep (n + 1)

/-- Go `strings.Join`. -/
def join : List Str → Str → Str
  | [], _ => []
  | [a], _ => a
  | a :: b :: rest, sep => a ++ sep ++ join (b :: rest) sep

/-! ## The `strconv` package -/

/-- The width of Go's `int` on the 64-bit targets the plugin is built for. -/
def intSize : Nat := 64

/-- The value of a decimal digit, `none` for any other character. -/
def digitVal (c : Char) : Option Nat :=
  if 48 ≤ c.toNat ∧ c.toNat ≤ 57 then some (c.toNat - 48) else none

/-- The digit loop of `strconv.ParseUint` in base 10, without the range check:
the value of a string of decimal digits, `none` on any other character. -/
def parseDigits : Str → Nat → Option Nat
  | [], acc => some acc
  | c :: cs, acc =>
    match digitVal c with
    | none => none
    | some d => parseDigits cs (acc * 10 + d)

/-- Go `strconv.Atoi`: an optional sign, then at least one decimal digit, and
the value has to fit an `int`; `none` stands for a returned error (syntax or
range). -/
def atoi (s : Str) : Option Int :=
  match s with
  | [] => none
  | c :: cs =>
    let neg := c == Char.ofNat 45
    let body := if c == Char.ofNat 43 || c == Char.ofNat 45 then cs else c :: cs
    if body = [] then none
    else
      match parseDigits body 0 with
      | none => none
      | some un =>
        let cutoff := 2 ^ (intSize - 1)
        if !neg && un ≥ cutoff then none
        else if neg && un > cutoff then none
        else some (if neg then - (un : Int) else (un : Int))

/-! ## Go maps -/

/-- The entries of an allocated `map[string]string`, keys pairwise distinct. -/
abbrev Entries := List (Str × Str)

/-- A `map[string]string` value: `none` is the nil map. -/
abbrev GoMap := Option Entries

/-- The assignment `m[k] = v` on an allocated map. -/
def mapAssign (m : Entries) (k v : Str) : Entries :=
  (k, v) :: m.filter (fun e => e.1 != k)

/-- The lookup `m[k]` with its presence flag; a nil map has no key. -/
def mapGet (m : GoMap) (k : Str) : Option Str :=
  match m with
  | none => none
  | some es => es.lookup k

/-- Equality of two maps as `reflect.DeepEqual` (used by the tests through
`assert.Equal`) sees it: both nil or both allocated, and the same value under
every key. -/
def MapEq (m₁ m₂ : GoMap) : Prop :=
  m₁.isNone = m₂.isNone ∧ ∀ k, mapGet m₁ k = mapGet m₂ k

/-! ## `isNumeric` and `parseBuildParameters` -/

/-- Source `isNumeric`: `strconv.Atoi` returns no error. -/
def isNumeric (s : Str) : Bool := (atoi s).isSome

/-- The element `parameters[i]` of a slice (the callers below guard the index). -/
def at_ (parameters : List Str) (i : Nat) : Str := parameters.getD i []

/-- The local variables of the job-name part of `parseBuildParameters`. -/
structure NameState where
  parameters : List Str
  jobNameParts : List Str
  paramIndex : Nat
  inQuotes : Bool
deriving DecidableEq, Repr

/-- Lines 96-121: the first token opens the job name. -/
def startName (parameters : List Str) : NameState :=
  if parameters.length > 0 && hasPrefix (at_ parameters 0) quote then
    let parameters := parameters.set 0 (trimPrefix (at_ parameters 0) quote)
    if hasSuffix (at_ parameters 0) quote then
      let parameters := parameters.set 0 (trimSuffix (at_ parameters 0) quote)
      ⟨parameters, [] ++ [at_ parameters 0], 1, false⟩
    else
      ⟨parameters, [] ++ [at_ parameters 0], 1, true⟩
  else if parameters.length > 0 then
    ⟨parameters, [] ++ [at_ parameters 0], 1, false⟩
  else
    ⟨parameters, [], 0, false⟩

/-- Lines 124-136: one iteration per unit of fuel while
`paramIndex < len(parameters) && inQuotes`. -/
def collectName : Nat → NameState → NameState
  | 0, s => s
  | fuel + 1, s =>
    if s.paramIndex < s.parameters.length && s.inQuotes then
      if hasSuffix (at_ s.parameters s.paramIndex) quote then
        let parameters :=
          s.parameters.set s.paramIndex (trimSuffix (at_ s.parameters s.paramIndex) quote)
        collectName fuel
          ⟨parameters, s.jobNameParts ++ [at_ parameters s.paramIndex], s.paramIndex + 1, false⟩
      else
        collectName fuel
          ⟨s.parameters, s.jobNameParts ++ [at_ s.parameters s.paramIndex],
            s.paramIndex + 1, true⟩
    else s

/-- Lines 152-160: the body of the key=value loop on the token `parameters[i]`. -/
def paramStep (token : Str) (paramMap : GoMap) : GoMap :=
  if contains token eqSign then
    let parts := splitN token eqSign 2
    if parts.length = 2 then
      let allocated : Entries := match paramMap with
        | none => []
        | some es => es
      some (mapAssign allocated (at_ parts 0) (at_ parts 1))
    else paramMap
  else paramMap

/-- Lines 151-161: the loop `for i := paramIndex; i < len(parameters); i++`,
one iteration per unit of fuel. -/
def collectParams (parameters : List Str) : Nat → Nat → GoMap → GoMap
  | 0, _, paramMap => paramMap
  | fuel + 1, i, paramMap =>
    if i < parameters.length then
      collectParams parameters fuel (i + 1) (paramStep (at_ parameters i) paramMap)
    else paramMap

/-- Everything one call of `parseBuildParameters` produces: the four returned
values, the caller's slice as the call leaves it, and the positions the parser
went through. -/
structure Run where
  jobName : Str
  buildNumber : Str
  paramMap : GoMap
  ok : Bool
  /-- The caller's slice after the call. -/
  parameters : List Str
  /-- Value of `paramIndex` when the job name is complete. -/
  nameEnd : Nat
  /-- Value of `paramIndex` when the key=value loop starts. -/
  paramStart : Nat
  /-- Value of `inQuotes` when the job name is complete. -/
  inQuotes : Bool
deriving DecidableEq, Repr

/-- Lines 96-136: the job-name part of `parseBuildParameters`; the loop gets
one unit of fuel per token. -/
def nameState (parameters : List Str) : NameState :=
  collectName parameters.length (startName parameters)

/-- Source `parseBuildParameters`, with its intermediate positions. -/
def run (parameters : List Str) : Run :=
  if parameters.length = 0 then
    ⟨[], [], none, false, parameters, 0, 0, false⟩
  else
    let s := nameState parameters
    let jobName := join s.jobNameParts space
    let numeric := s.paramIndex < s.parameters.length && isNumeric (at_ s.parameters s.paramIndex)
    let buildNumber := if numeric then at_ s.parameters s.paramIndex else []
    let paramIndex := if numeric then s.paramIndex + 1 else s.paramIndex
    let paramMap := collectParams s.parameters s.parameters.length paramIndex none
    ⟨jobName, buildNumber, paramMap, true, s.parameters, s.paramIndex, paramIndex, s.inQuotes⟩

/-- Source `parseBuildParameters`: job name, build number, parameters, ok. -/
def parseBuildParameters (parameters : List Str) : Str × Str × GoMap × Bool :=
  let r := run parameters
  (r.jobName, r.buildNumber, r.paramMap, r.ok)

/-- A string literal as a Go string. -/
def lit (s : String) : Str := s.toList

/-! ## Vocabulary of the statements -/

/-- The token `t` reads `k=v`, split at its first `=`. -/
def Binds (t k v : Str) : Prop := eqChar ∉ k ∧ t = k ++ eqChar :: v

/-- The key=value loop, read as a fold over the tokens it visits. -/
def foldParams (ts : List Str) (m : GoMap) : GoMap :=
  ts.foldl (fun m t => paramStep t m) m

/-- The tokens left once the job name is complete. -/
def afterName (tokens : List Str) : List Str := tokens.drop (nameState tokens).paramIndex

/-- The four ways the job-name part can go, with the state each one ends in. -/
inductive NameShape : List Str → NameState → Prop
  | plain (t : Str) (rest : List Str) (h : hasPrefix t quote = false) :
      NameShape (t :: rest) ⟨t :: rest, [t], 1, false⟩
  | quoted (b : Str) (rest : List Str) :
      NameShape ((quoteChar :: (b ++ quote)) :: rest) ⟨b :: rest, [b], 1, false⟩
  | close (a : Str) (mid : List Str) (b : Str) (post : List Str)
      (ha : hasSuffix a quote = false) (hmid : ∀ x ∈ mid, hasSuffix x quote = false) :
      NameShape ((quoteChar :: a) :: (mid ++ (b ++ quote) :: post))
        ⟨a :: (mid ++ b :: post), a :: (mid ++ [b]), mid.length + 2, false⟩
  | unclosed (a : Str) (rest : List Str)
      (ha : hasSuffix a quote = false) (hrest : ∀ x ∈ rest, hasSuffix x quote = false) :
      NameShape ((quoteChar :: a) :: rest) ⟨a :: rest, a :: rest, rest.length + 1, true⟩

/-- The number a string of decimal digits denotes. -/
def decimal (d : Str) : Nat := d.foldl (fun n c => n * 10 + (c.toNat - 48)) 0

/-- The text of a token before its first `=` (the whole token when it has none). -/
def keyOf (t : Str) : Str := t.takeWhile (fun c => c != eqChar)

/-- The job name as one token again: wrapped in double-quotes when it
contains a blank, unchanged otherwise. -/
def requote (j : Str) : Str :=
  if contains j space then quote ++ j ++ quote else j

/-! ## Padding (`pad`, `unpad`) -/

/-- A Go `[]byte`, as the list of its byte values. -/
abbrev Bytes := List Nat

/-- The constant `aes.BlockSize` of `crypto/aes`. -/
def blockSize : Nat := 16

/-- Source `pad`; `byte(padding)` is the value modulo 256. -/
def pad (src : Bytes) : Bytes :=
  let padding := blockSize - src.length % blockSize
  let padtext := List.replicate padding (padding % 256)
  src ++ padtext

/-- How a call of `unpad` ends: a run-time panic for an index or slice bound
out of range, the returned error, or the returned bytes. -/
inductive UnpadResult where
  | outOfRange
  | error
  | ok (bytes : Bytes)
deriving DecidableEq, Repr

/-- Source `unpad`, with the bounds checks Go makes on `src[length-1]` and on
`src[:(length - unpadding)]`. -/
def unpad (src : Bytes) : UnpadResult :=
  let length : Int := src.length
  if length - 1 < 0 ∨ length - 1 ≥ src.length then UnpadResult.outOfRange
  else
    let unpadding : Int := src.getD (length - 1).toNat 0
    if unpadding > length then UnpadResult.error
    else if length - unpadding < 0 ∨ length - unpadding > src.length then UnpadResult.outOfRange
    else UnpadResult.ok (src.take (length - unpadding).toNat)

/-! ## Facts about the string helpers -/

theorem hasPrefix_iff (s pre : Str) : hasPrefix s pre = true ↔ ∃ a, s = pre ++ a := by
  unfold hasPrefix
  simp only [Bool.and_eq_true, decide_eq_true_eq, beq_iff_eq, ge_iff_le]
  constructor
  · rintro ⟨_, h⟩
    have e := List.take_append_drop pre.length s
    rw [h] at e
    exact ⟨s.drop pre.length, e.symm⟩
  · rintro ⟨a, rfl⟩
    simp

theorem hasSuffix_iff (s suf : Str) : hasSuffix s suf = true ↔ ∃ b, s = b ++ suf := by
  unfold hasSuffix
  simp only [Bool.and_eq_true, decide_eq_true_eq, beq_iff_eq, ge_iff_le]
  constructor
  · rintro ⟨_, h⟩
    have e := List.take_append_drop (s.length - suf.length) s
    rw [h] at e
    exact ⟨s.take (s.length - suf.length), e.symm⟩
  · rintro ⟨b, rfl⟩
    simp

theorem hasSuffix_append (b suf : Str) : hasSuffix (b ++ suf) suf = true :=
  (hasSuffix_iff _ _).2 ⟨b, rfl⟩

theorem hasPrefix_quote_cons (a : Str) : hasPrefix (quoteChar :: a) quote = true :=
  (hasPrefix_iff _ _).2 ⟨a, rfl⟩

theorem trimPrefix_quote_cons (a : Str) : trimPrefix (quoteChar :: a) quote = a := by
  unfold trimPrefix
  rw [hasPrefix_quote_cons]
  simp [quote]

theorem trimSuffix_append (b suf : Str) : trimSuffix (b ++ suf) suf = b := by
  unfold trimSuffix
  rw [hasSuffix_append]
  simp

theorem trimSuffix_of_not (s suf : Str) (h : hasSuffix s suf = false) :
    trimSuffix s suf = s := by
  unfold trimSuffix
  simp [h]

theorem trimPrefix_of_not (s pre : Str) (h : hasPrefix s pre = false) :
    trimPrefix s pre = s := by
  unfold trimPrefix
  simp [h]

theorem hasPrefix_cons_eqSign (c : Char) (cs : Str) :
    hasPrefix (c :: cs) eqSign = (c == eqChar) := by
  simp [hasPrefix, eqSign]

theorem index_eqSign_of_not_mem (s : Str) (h : eqChar ∉ s) : index s eqSign = none := by
  induction s with
  | nil => simp [index, eqSign]
  | cons c cs ih =>
    simp only [List.mem_cons, not_or] at h
    have hc : ¬ c = eqChar := fun e => h.1 e.symm
    simp [index, hasPrefix_cons_eqSign, hc, ih h.2]

theorem index_eqSign_split (k v : Str) (h : eqChar ∉ k) :
    index (k ++ eqChar :: v) eqSign = some k.length := by
  induction k with
  | nil => simp [index, hasPrefix_cons_eqSign]
  | cons c cs ih =>
    simp only [List.mem_cons, not_or] at h
    have hc : ¬ c = eqChar := fun e => h.1 e.symm
    simp [index, hasPrefix_cons_eqSign, hc, ih h.2]

theorem exists_first_eq (s : Str) (h : eqChar ∈ s) :
    ∃ k v, s = k ++ eqChar :: v ∧ eqChar ∉ k := by
  induction s with
  | nil => simp at h
  | cons c cs ih =>
    by_cases hc : c = eqChar
    · exact ⟨[], cs, by simp [hc], by simp⟩
    · have hmem : eqChar ∈ cs := by
        rcases List.mem_cons.1 h with e | e
        · exact absurd e.symm hc
        · exact e
      obtain ⟨k, v, e, hk⟩ := ih hmem
      refine ⟨c :: k, v, by simp [e], ?_⟩
      simp only [List.mem_cons, not_or]
      exact ⟨fun e => hc e.symm, hk⟩

theorem contains_eqSign_iff (s : Str) : contains s eqSign = true ↔ eqChar ∈ s := by
  constructor
  · intro h
    by_contra hn
    simp [contains, index_eqSign_of_not_mem s hn] at h
  · intro h
    obtain ⟨k, v, rfl, hk⟩ := exists_first_eq s h
    simp [contains, index_eqSign_split k v hk]

theorem splitN_pair (k v : Str) (h : eqChar ∉ k) :
    splitN (k ++ eqChar :: v) eqSign 2 = [k, v] := by
  unfold splitN
  rw [index_eqSign_split k v h]
  simp [splitN, eqSign]

theorem Binds.unique {t k v k₂ v₂ : Str} (h : Binds t k v) (h₂ : Binds t k₂ v₂) :
    k = k₂ ∧ v = v₂ := by
  obtain ⟨hk, rfl⟩ := h
  obtain ⟨hk₂, e⟩ := h₂
  have hs := splitN_pair k v hk
  rw [e, splitN_pair k₂ v₂ hk₂] at hs
  simp only [List.cons.injEq, and_true] at hs
  exact ⟨hs.1.symm, hs.2.symm⟩

theorem Binds.mem {t k v : Str} (h : Binds t k v) : eqChar ∈ t := by
  rw [h.2]; simp

theorem paramStep_binds {t k v : Str} (h : Binds t k v) (m : GoMap) :
    paramStep t m = some (mapAssign (m.getD []) k v) := by
  have hc : contains t eqSign = true := (contains_eqSign_iff t).2 h.mem
  obtain ⟨hk, rfl⟩ := h
  unfold paramStep
  rw [hc, splitN_pair k v hk]
  cases m <;> simp [at_]

theorem paramStep_of_not_mem {t : Str} (h : eqChar ∉ t) (m : GoMap) : paramStep t m = m := by
  have hc : contains t eqSign = false := by
    rw [← Bool.not_eq_true, contains_eqSign_iff]; exact h
  simp [paramStep, hc]

theorem lookup_filter_ne (es : Entries) (k k₂ : Str) (hk : ¬ k₂ = k) :
    (es.filter (fun e => e.1 != k)).lookup k₂ = es.lookup k₂ := by
  induction es with
  | nil => rfl
  | cons e es ih =>
    obtain ⟨a, b⟩ := e
    by_cases ha : a = k
    · subst ha
      have hb : (k₂ == a) = false := by simpa using hk
      simp [List.filter, List.lookup_cons, hb, ih]
    · have hf : (a != k) = true := by simpa using ha
      simp only [List.filter, hf, List.lookup_cons, ih]

theorem lookup_mapAssign (es : Entries) (k v k₂ : Str) :
    (mapAssign es k v).lookup k₂ = if k₂ = k then some v else es.lookup k₂ := by
  unfold mapAssign
  by_cases hk : k₂ = k
  · subst hk
    simp [List.lookup]
  · have hb : (k₂ == k) = false := by simpa using hk
    rw [List.lookup_cons, hb, if_neg hk]
    exact lookup_filter_ne es k k₂ hk

/-! ## The job-name part -/

theorem at_append (done : List Str) (x : Str) (post : List Str) :
    at_ (done ++ x :: post) done.length = x := by
  induction done with
  | nil => rfl
  | cons d ds ih => simpa [at_, List.getD] using ih

theorem set_append (done : List Str) (x y : Str) (post : List Str) :
    (done ++ x :: post).set done.length y = done ++ y :: post := by
  induction done with
  | nil => rfl
  | cons d ds ih => simp [List.set, ih]

theorem collectName_closed (fuel : Nat) (s : NameState) (h : s.inQuotes = false) :
    collectName fuel s = s := by
  cases fuel <;> simp [collectName, h]

/-- No remaining token closes the quote: the loop takes them all. -/
theorem collectName_open (rest : List Str) :
    ∀ (done parts : List Str) (fuel : Nat), rest.length ≤ fuel →
      (∀ x ∈ rest, hasSuffix x quote = false) →
      collectName fuel ⟨done ++ rest, parts, done.length, true⟩ =
        ⟨done ++ rest, parts ++ rest, done.length + rest.length, true⟩ := by
  induction rest with
  | nil =>
    intro done parts fuel _ _
    cases fuel <;> simp [collectName]
  | cons x xs ih =>
    intro done parts fuel hf hx
    obtain ⟨f, rfl⟩ : ∃ f, fuel = f + 1 := ⟨fuel - 1, by simp at hf; omega⟩
    have hx0 : hasSuffix x quote = false := hx x (List.mem_cons_self _ _)
    have step := ih (done ++ [x]) (parts ++ [x]) f (by simp at hf; omega)
      (fun y hy => hx y (List.mem_cons_of_mem _ hy))
    simp only [List.append_assoc, List.singleton_append, List.length_append,
      List.length_singleton] at step
    simp only [collectName, at_append, hx0]
    simp only [List.length_append, List.length_cons]
    rw [if_pos (by simp), if_neg (by simp), step]
    simp only [List.append_assoc, List.singleton_append, List.cons_append, List.nil_append,
      NameState.mk.injEq, true_and, and_true]
    omega

/-- The first remaining token that ends with a quote closes the job name. -/
theorem collectName_close (mid : List Str) (b : Str) (post : List Str) :
    ∀ (done parts : List Str) (fuel : Nat), mid.length + 1 ≤ fuel →
      (∀ x ∈ mid, hasSuffix x quote = false) →
      collectName fuel ⟨done ++ (mid ++ (b ++ quote) :: post), parts, done.length, true⟩ =
        ⟨done ++ (mid ++ b :: post), parts ++ (mid ++ [b]), done.length + mid.length + 1,
          false⟩ := by
  induction mid with
  | nil =>
    intro done parts fuel hf _
    obtain ⟨f, rfl⟩ : ∃ f, fuel = f + 1 := ⟨fuel - 1, by simp at hf; omega⟩
    simp only [List.nil_append, collectName, at_append, hasSuffix_append, trimSuffix_append,
      set_append]
    simp only [List.length_append, List.length_cons]
    rw [if_pos (by simp), if_pos trivial, collectName_closed _ _ rfl]
    simp
  | cons x xs ih =>
    intro done parts fuel hf hx
    obtain ⟨f, rfl⟩ : ∃ f, fuel = f + 1 := ⟨fuel - 1, by simp at hf; omega⟩
    have hx0 : hasSuffix x quote = false := hx x (List.mem_cons_self _ _)
    have step := ih (done ++ [x]) (parts ++ [x]) f (by simp at hf; omega)
      (fun y hy => hx y (List.mem_cons_of_mem _ hy))
    simp only [List.append_assoc, List.singleton_append, List.length_append,
      List.length_singleton] at step
    simp only [List.cons_append, collectName, at_append, hx0]
    simp only [List.length_append, List.length_cons]
    rw [if_pos (by simp), if_neg (by simp), step]
    simp only [List.append_assoc, List.singleton_append, List.cons_append, List.nil_append,
      NameState.mk.injEq, true_and, and_true]
    omega

theorem startName_plain (t : Str) (rest : List Str) (h : hasPrefix t quote = false) :
    startName (t :: rest) = ⟨t :: rest, [t], 1, false⟩ := by
  simp [startName, at_, h]

theorem startName_quoted (b : Str) (rest : List Str) :
    startName ((quoteChar :: (b ++ quote)) :: rest) = ⟨b :: rest, [b], 1, false⟩ := by
  simp [startName, at_, hasPrefix_quote_cons, trimPrefix_quote_cons, hasSuffix_append,
    trimSuffix_append]

theorem startName_open (a : Str) (rest : List Str) (h : hasSuffix a quote = false) :
    startName ((quoteChar :: a) :: rest) = ⟨a :: rest, [a], 1, true⟩ := by
  simp [startName, at_, hasPrefix_quote_cons, trimPrefix_quote_cons, h]

theorem nameState_plain (t : Str) (rest : List Str) (h : hasPrefix t quote = false) :
    nameState (t :: rest) = ⟨t :: rest, [t], 1, false⟩ := by
  rw [nameState, startName_plain t rest h, collectName_closed _ _ rfl]

theorem nameState_quoted (b : Str) (rest : List Str) :
    nameState ((quoteChar :: (b ++ quote)) :: rest) = ⟨b :: rest, [b], 1, false⟩ := by
  rw [nameState, startName_quoted, collectName_closed _ _ rfl]

theorem nameState_close (a : Str) (mid : List Str) (b : Str) (post : List Str)
    (ha : hasSuffix a quote = false) (hmid : ∀ x ∈ mid, hasSuffix x quote = false) :
    nameState ((quoteChar :: a) :: (mid ++ (b ++ quote) :: post)) =
      ⟨a :: (mid ++ b :: post), a :: (mid ++ [b]), mid.length + 2, false⟩ := by
  rw [nameState, startName_open a _ ha]
  have h := collectName_close mid b post [a] [a]
    ((quoteChar :: a) :: (mid ++ (b ++ quote) :: post)).length (by simp) hmid
  simp only [List.singleton_append, List.length_singleton] at h
  rw [h]
  simp only [NameState.mk.injEq, true_and, and_true]
  omega

theorem nameState_open (a : Str) (rest : List Str)
    (ha : hasSuffix a quote = false) (hrest : ∀ x ∈ rest, hasSuffix x quote = false) :
    nameState ((quoteChar :: a) :: rest) = ⟨a :: rest, a :: rest, rest.length + 1, true⟩ := by
  rw [nameState, startName_open a _ ha]
  have h := collectName_open rest [a] [a] ((quoteChar :: a) :: rest).length (by simp) hrest
  simp only [List.singleton_append, List.length_singleton] at h
  rw [h]
  simp only [NameState.mk.injEq, true_and, and_true]
  omega

/-- Either no token ends with a quote, or there is a first one that does. -/
theorem first_closing (l : List Str) :
    (∀ x ∈ l, hasSuffix x quote = false) ∨
      ∃ mid b post, l = mid ++ (b ++ quote) :: post ∧ ∀ x ∈ mid, hasSuffix x quote = false := by
  induction l with
  | nil => left; simp
  | cons x xs ih =>
    cases hx : hasSuffix x quote with
    | true =>
      obtain ⟨b, rfl⟩ := (hasSuffix_iff _ _).1 hx
      exact Or.inr ⟨[], b, xs, rfl, by simp⟩
    | false =>
      rcases ih with h | ⟨mid, b, post, rfl, hmid⟩
      · left
        intro y hy
        rcases List.mem_cons.1 hy with rfl | hy
        · exact hx
        · exact h y hy
      · right
        refine ⟨x :: mid, b, post, rfl, ?_⟩
        intro y hy
        rcases List.mem_cons.1 hy with rfl | hy
        · exact hx
        · exact hmid y hy

theorem nameState_shape (tokens : List Str) (h : tokens ≠ []) :
    NameShape tokens (nameState tokens) := by
  obtain ⟨t, rest, rfl⟩ := List.exists_cons_of_ne_nil h
  cases hp : hasPrefix t quote with
  | false =>
    rw [nameState_plain t rest hp]
    exact NameShape.plain t rest hp
  | true =>
    obtain ⟨a, ha⟩ := (hasPrefix_iff _ _).1 hp
    have ha₂ : t = quoteChar :: a := ha
    subst ha₂
    cases hs : hasSuffix a quote with
    | true =>
      obtain ⟨b, rfl⟩ := (hasSuffix_iff _ _).1 hs
      rw [nameState_quoted]
      exact NameShape.quoted b rest
    | false =>
      rcases first_closing rest with hrest | ⟨mid, b, post, rfl, hmid⟩
      · rw [nameState_open a rest hs hrest]
        exact NameShape.unclosed a rest hs hrest
      · rw [nameState_close a mid b post hs hmid]
        exact NameShape.close a mid b post hs hmid

/-- What the job-name part leaves untouched: the slice keeps its length, the
tokens from `paramIndex` on are the caller's, and an open quote means every
token was taken. -/
theorem nameState_frame (tokens : List Str) (h : tokens ≠ []) :
    1 ≤ (nameState tokens).paramIndex ∧
    (nameState tokens).paramIndex ≤ tokens.length ∧
    (nameState tokens).parameters.length = tokens.length ∧
    (nameState tokens).parameters.drop (nameState tokens).paramIndex
      = tokens.drop (nameState tokens).paramIndex ∧
    ((nameState tokens).inQuotes = true → (nameState tokens).paramIndex = tokens.length) := by
  have sh := nameState_shape tokens h
  generalize nameState tokens = s at sh
  cases sh with
  | plain t rest hp => simp
  | quoted b rest => simp
  | close a mid b post ha hmid =>
    refine ⟨by simp, by simp, by simp, ?_, by simp⟩
    show List.drop (mid.length + 1 + 1) (a :: (mid ++ b :: post))
      = List.drop (mid.length + 1 + 1) ((quoteChar :: a) :: (mid ++ (b ++ quote) :: post))
    rw [List.drop_succ_cons, List.drop_succ_cons, List.drop_append_eq_append_drop,
      List.drop_append_eq_append_drop]
    simp
  | unclosed a rest ha hrest => simp

/-! ## The key=value loop -/

theorem at_of_lt (ps : List Str) (i : Nat) (h : i < ps.length) : at_ ps i = ps[i] := by
  simp [at_, List.getD, List.getElem?_eq_getElem h]

theorem at_eq_head_drop (ps ts : List Str) (i : Nat) (t : Str) (h : ps.drop i = t :: ts) :
    at_ ps i = t := by
  have hi : i < ps.length := by
    by_contra hn
    rw [List.drop_of_length_le (by omega)] at h
    exact List.noConfusion h
  rw [at_of_lt ps i hi]
  rw [List.drop_eq_getElem_cons hi] at h
  exact (List.cons.inj h).1

/-- With one unit of fuel per remaining index the loop visits every token from
`i` on. -/
theorem collectParams_eq_fold (ps : List Str) :
    ∀ (fuel i : Nat) (m : GoMap), ps.length - i ≤ fuel →
      collectParams ps fuel i m = foldParams (ps.drop i) m := by
  intro fuel
  induction fuel with
  | zero =>
    intro i m h
    rw [List.drop_of_length_le (by omega)]
    rfl
  | succ f ih =>
    intro i m h
    by_cases hi : i < ps.length
    · rw [collectParams, if_pos hi, ih (i + 1) _ (by omega), List.drop_eq_getElem_cons hi,
        at_of_lt ps i hi]
      rfl
    · rw [collectParams, if_neg hi, List.drop_of_length_le (by omega)]
      rfl

theorem foldParams_append (xs ys : List Str) (m : GoMap) :
    foldParams (xs ++ ys) m = foldParams ys (foldParams xs m) := by
  simp [foldParams, List.foldl_append]

theorem run_after_nil (tokens : List Str) (h : tokens ≠ []) (hr : afterName tokens = []) :
    run tokens = ⟨join (nameState tokens).jobNameParts space, [], none, true,
      (nameState tokens).parameters, (nameState tokens).paramIndex,
      (nameState tokens).paramIndex, (nameState tokens).inQuotes⟩ := by
  obtain ⟨_, hle, hlen, hdrop, _⟩ := nameState_frame tokens h
  have hlen0 : ¬ tokens.length = 0 := fun e => h (List.length_eq_zero.1 e)
  have hge : tokens.length ≤ (nameState tokens).paramIndex := by
    have := congrArg List.length hr
    simp [afterName] at this
    omega
  have hlt : ¬ (nameState tokens).paramIndex < (nameState tokens).parameters.length := by omega
  unfold run
  simp only [if_neg hlen0, hlt, decide_False, Bool.false_and, if_false, Bool.false_eq_true]
  rw [collectParams_eq_fold _ _ _ _ (by omega), hdrop]
  have hr₂ : tokens.drop (nameState tokens).paramIndex = [] := hr
  rw [hr₂]
  rfl

theorem run_after_numeric (tokens : List Str) (h : tokens ≠ []) (t : Str) (ts : List Str)
    (hr : afterName tokens = t :: ts) (hn : isNumeric t = true) :
    run tokens = ⟨join (nameState tokens).jobNameParts space, t, foldParams ts none, true,
      (nameState tokens).parameters, (nameState tokens).paramIndex,
      (nameState tokens).paramIndex + 1, (nameState tokens).inQuotes⟩ := by
  obtain ⟨_, hle, hlen, hdrop, _⟩ := nameState_frame tokens h
  have hlen0 : ¬ tokens.length = 0 := fun e => h (List.length_eq_zero.1 e)
  have hr₂ : (nameState tokens).parameters.drop (nameState tokens).paramIndex = t :: ts := by
    rw [hdrop]; exact hr
  have hat := at_eq_head_drop _ _ _ _ hr₂
  have hlt : (nameState tokens).paramIndex < (nameState tokens).parameters.length := by
    have := congrArg List.length hr₂
    simp at this
    omega
  have hdrop₂ : (nameState tokens).parameters.drop ((nameState tokens).paramIndex + 1) = ts := by
    rw [← List.drop_drop, hr₂]
    rfl
  unfold run
  simp only [if_neg hlen0, hlt, hat, hn, decide_True, Bool.and_self, if_true]
  rw [collectParams_eq_fold _ _ _ _ (by omega), hdrop₂]

theorem run_after_other (tokens : List Str) (h : tokens ≠ []) (t : Str) (ts : List Str)
    (hr : afterName tokens = t :: ts) (hn : isNumeric t = false) :
    run tokens = ⟨join (nameState tokens).jobNameParts space, [], foldParams (t :: ts) none,
      true, (nameState tokens).parameters, (nameState tokens).paramIndex,
      (nameState tokens).paramIndex, (nameState tokens).inQuotes⟩ := by
  obtain ⟨_, hle, hlen, hdrop, _⟩ := nameState_frame tokens h
  have hlen0 : ¬ tokens.length = 0 := fun e => h (List.length_eq_zero.1 e)
  have hr₂ : (nameState tokens).parameters.drop (nameState tokens).paramIndex = t :: ts := by
    rw [hdrop]; exact hr
  have hat := at_eq_head_drop _ _ _ _ hr₂
  unfold run
  simp only [if_neg hlen0, hat, hn, Bool.and_false, if_false, Bool.false_eq_true]
  rw [collectParams_eq_fold _ _ _ _ (by omega), hr₂]

theorem run_ok (tokens : List Str) (h : tokens ≠ []) : (run tokens).ok = true := by
  have hlen0 : ¬ tokens.length = 0 := fun e => h (List.length_eq_zero.1 e)
  simp [run, hlen0]

theorem run_nameEnd (tokens : List Str) (h : tokens ≠ []) :
    (run tokens).nameEnd = (nameState tokens).paramIndex := by
  have hlen0 : ¬ tokens.length = 0 := fun e => h (List.length_eq_zero.1 e)
  simp [run, hlen0]

theorem run_jobName (tokens : List Str) (h : tokens ≠ []) :
    (run tokens).jobName = join (nameState tokens).jobNameParts space := by
  have hlen0 : ¬ tokens.length = 0 := fun e => h (List.length_eq_zero.1 e)
  simp [run, hlen0]

/-- The build number as line 145 reads it off the tokens after the job name. -/
theorem run_buildNumber (tokens : List Str) (h : tokens ≠ []) :
    (run tokens).buildNumber =
      match afterName tokens with
      | [] => []
      | t :: _ => if isNumeric t then t else [] := by
  cases hr : afterName tokens with
  | nil => rw [run_after_nil tokens h hr]
  | cons t ts =>
    cases hn : isNumeric t with
    | true => rw [run_after_numeric tokens h t ts hr hn]; simp [hn]
    | false => rw [run_after_other tokens h t ts hr hn]; simp [hn]

/-- Where the key=value loop starts: one past the job name when a build
number was taken. -/
theorem run_paramStart (tokens : List Str) (h : tokens ≠ []) :
    (run tokens).paramStart =
      match afterName tokens with
      | [] => (run tokens).nameEnd
      | t :: _ => if isNumeric t then (run tokens).nameEnd + 1 else (run tokens).nameEnd := by
  cases hr : afterName tokens with
  | nil => rw [run_after_nil tokens h hr]
  | cons t ts =>
    cases hn : isNumeric t with
    | true => rw [run_after_numeric tokens h t ts hr hn]; simp [hn]
    | false => rw [run_after_other tokens h t ts hr hn]; simp [hn]

/-- The parameters map is the fold of the loop body over the tokens from
`paramStart` on, as the caller passed them. -/
theorem run_paramMap (tokens : List Str) :
    (run tokens).paramMap = foldParams (tokens.drop (run tokens).paramStart) none := by
  by_cases h : tokens = []
  · subst h; rfl
  · cases hr : afterName tokens with
    | nil =>
      rw [run_after_nil tokens h hr]
      have hr₂ : tokens.drop (nameState tokens).paramIndex = [] := hr
      simp only [hr₂]
      rfl
    | cons t ts =>
      have hr₂ : tokens.drop (nameState tokens).paramIndex = t :: ts := hr
      cases hn : isNumeric t with
      | true =>
        rw [run_after_numeric tokens h t ts hr hn]
        simp only
        rw [← List.drop_drop, hr₂]
        rfl
      | false =>
        rw [run_after_other tokens h t ts hr hn]
        simp only [hr₂]

theorem quoted_shape (t : Str) (h : hasPrefix t quote = true) : t = quoteChar :: t.drop 1 := by
  obtain ⟨a, ha⟩ := (hasPrefix_iff _ _).1 h
  have ha₂ : t = quoteChar :: a := ha
  subst ha₂
  rfl

theorem closing_shape (u : Str) (h : hasSuffix u quote = true) : u = u.dropLast ++ quote := by
  obtain ⟨b, rfl⟩ := (hasSuffix_iff _ _).1 h
  simp [quote]

/-! ## What the key=value loop leaves in the map -/

theorem mapGet_getD (m : GoMap) (k : Str) : (m.getD []).lookup k = mapGet m k := by
  cases m <;> rfl

theorem mapGet_paramStep (t : Str) (m : GoMap) (k v : Str) :
    mapGet (paramStep t m) k = some v ↔
      Binds t k v ∨ ((∀ w, ¬ Binds t k w) ∧ mapGet m k = some v) := by
  by_cases hmem : eqChar ∈ t
  · obtain ⟨k₀, v₀, e, hk₀⟩ := exists_first_eq t hmem
    have hb : Binds t k₀ v₀ := ⟨hk₀, e⟩
    rw [paramStep_binds hb]
    show (mapAssign (m.getD []) k₀ v₀).lookup k = some v ↔ _
    rw [lookup_mapAssign, mapGet_getD]
    by_cases hk : k = k₀
    · subst hk
      rw [if_pos rfl]
      constructor
      · intro h
        have hv : v₀ = v := Option.some.inj h
        subst hv
        exact Or.inl hb
      · rintro (h | ⟨h, _⟩)
        · rw [(Binds.unique hb h).2]
        · exact absurd hb (h v₀)
    · rw [if_neg hk]
      constructor
      · intro h
        exact Or.inr ⟨fun w hw => hk (Binds.unique hw hb).1, h⟩
      · rintro (h | ⟨_, h⟩)
        · exact absurd (Binds.unique h hb).1 hk
        · exact h
  · rw [paramStep_of_not_mem hmem]
    constructor
    · intro h
      exact Or.inr ⟨fun w hw => hmem hw.mem, h⟩
    · rintro (h | ⟨_, h⟩)
      · exact absurd h.mem hmem
      · exact h

/-- The value under `k` after the loop: that of the last token with key `k`,
or else the one the map held before. -/
theorem mapGet_foldParams (ts : List Str) :
    ∀ (m : GoMap) (k v : Str),
      mapGet (foldParams ts m) k = some v ↔
        (∃ pre t post, ts = pre ++ t :: post ∧ Binds t k v ∧ ∀ u ∈ post, ∀ w, ¬ Binds u k w) ∨
        ((∀ u ∈ ts, ∀ w, ¬ Binds u k w) ∧ mapGet m k = some v) := by
  induction ts with
  | nil =>
    intro m k v
    constructor
    · intro h
      exact Or.inr ⟨by simp, h⟩
    · rintro (⟨pre, t, post, e, _⟩ | ⟨_, h⟩)
      · simp at e
      · exact h
  | cons t ts ih =>
    intro m k v
    have hstep : foldParams (t :: ts) m = foldParams ts (paramStep t m) := rfl
    rw [hstep, ih, mapGet_paramStep]
    constructor
    · rintro (⟨pre, u, post, e, hb, hpost⟩ | ⟨hno, hb | ⟨hnot, hm⟩⟩)
      · exact Or.inl ⟨t :: pre, u, post, by rw [e]; rfl, hb, hpost⟩
      · exact Or.inl ⟨[], t, ts, rfl, hb, hno⟩
      · refine Or.inr ⟨?_, hm⟩
        intro u hu
        rcases List.mem_cons.1 hu with rfl | hu
        · exact hnot
        · exact hno u hu
    · rintro (⟨pre, u, post, e, hb, hpost⟩ | ⟨hno, hm⟩)
      · cases pre with
        | nil =>
          obtain ⟨rfl, rfl⟩ := List.cons.inj e
          exact Or.inr ⟨hpost, Or.inl hb⟩
        | cons p pre =>
          obtain ⟨rfl, rfl⟩ := List.cons.inj e
          exact Or.inl ⟨pre, u, post, rfl, hb, hpost⟩
      · exact Or.inr ⟨fun u hu => hno u (List.mem_cons_of_mem _ hu),
          Or.inr ⟨hno t (List.mem_cons_self _ _), hm⟩⟩

/-- Among the tokens with key `k` there is a last one. -/
theorem exists_last_binding (ts : List Str) (k : Str)
    (h : ∃ t ∈ ts, ∃ w, Binds t k w) :
    ∃ pre t post v, ts = pre ++ t :: post ∧ Binds t k v ∧ ∀ u ∈ post, ∀ w, ¬ Binds u k w := by
  induction ts with
  | nil =>
    obtain ⟨t, ht, _⟩ := h
    simp at ht
  | cons x xs ih =>
    by_cases hx : ∃ t ∈ xs, ∃ w, Binds t k w
    · obtain ⟨pre, t, post, v, e, hb, hpost⟩ := ih hx
      exact ⟨x :: pre, t, post, v, by rw [e]; rfl, hb, hpost⟩
    · obtain ⟨t, ht, w, hw⟩ := h
      rcases List.mem_cons.1 ht with rfl | ht
      · exact ⟨[], t, xs, w, rfl, hw, fun u hu w₂ hw₂ => hx ⟨u, hu, w₂, hw₂⟩⟩
      · exact absurd ⟨t, ht, w, hw⟩ hx

theorem paramStep_eq_none (t : Str) (m : GoMap) :
    paramStep t m = none ↔ m = none ∧ eqChar ∉ t := by
  by_cases hmem : eqChar ∈ t
  · obtain ⟨k₀, v₀, e, hk₀⟩ := exists_first_eq t hmem
    rw [paramStep_binds ⟨hk₀, e⟩]
    simp [hmem]
  · rw [paramStep_of_not_mem hmem]
    simp [hmem]

/-- The map stays nil exactly when no visited token contains `=`. -/
theorem foldParams_eq_none (ts : List Str) :
    ∀ m : GoMap, foldParams ts m = none ↔ m = none ∧ ∀ t ∈ ts, eqChar ∉ t := by
  induction ts with
  | nil => intro m; simp [foldParams]
  | cons t ts ih =>
    intro m
    have hstep : foldParams (t :: ts) m = foldParams ts (paramStep t m) := rfl
    rw [hstep, ih, paramStep_eq_none]
    simp only [List.mem_cons, forall_eq_or_imp, and_assoc]

theorem foldParams_filter (ts : List Str) :
    ∀ m : GoMap, foldParams (ts.filter (fun t => contains t eqSign)) m = foldParams ts m := by
  induction ts with
  | nil => intro m; rfl
  | cons t ts ih =>
    intro m
    have hstep : foldParams (t :: ts) m = foldParams ts (paramStep t m) := rfl
    cases hc : contains t eqSign with
    | true =>
      have hf : (t :: ts).filter (fun t => contains t eqSign)
          = t :: ts.filter (fun t => contains t eqSign) := by
        simp [List.filter, hc]
      rw [hf, hstep, ← ih]
      rfl
    | false =>
      have hmem : eqChar ∉ t := by
        rw [← contains_eqSign_iff, hc]; simp
      have hf : (t :: ts).filter (fun t => contains t eqSign)
          = ts.filter (fun t => contains t eqSign) := by
        simp [List.filter, hc]
      rw [hf, hstep, paramStep_of_not_mem hmem, ih]

/-! ## Tokens appended to a complete job name -/

theorem keyOf_binds {t k v : Str} (h : Binds t k v) : keyOf t = k := by
  obtain ⟨hk, rfl⟩ := h
  unfold keyOf
  rw [List.takeWhile_append_of_pos]
  · simp
  · intro a ha
    have : a ≠ eqChar := fun e => hk (e ▸ ha)
    simpa using this

theorem parseDigits_none (s : Str) :
    ∀ acc : Nat, (∃ c ∈ s, digitVal c = none) → parseDigits s acc = none := by
  induction s with
  | nil => intro acc h; obtain ⟨c, hc, _⟩ := h; simp at hc
  | cons x xs ih =>
    intro acc h
    cases hx : digitVal x with
    | none => simp [parseDigits, hx]
    | some d =>
      obtain ⟨c, hc, hcn⟩ := h
      rcases List.mem_cons.1 hc with rfl | hc
      · rw [hx] at hcn; exact Option.noConfusion hcn
      · simp only [parseDigits, hx]
        exact ih _ ⟨c, hc, hcn⟩

/-- A token containing `=` is never taken for a build number. -/
theorem isNumeric_of_mem_eq (t : Str) (h : eqChar ∈ t) : isNumeric t = false := by
  have hd : digitVal eqChar = none := by decide
  cases t with
  | nil => rfl
  | cons c cs =>
    unfold isNumeric atoi
    by_cases hsign : (c == Char.ofNat 43 || c == Char.ofNat 45) = true
    · have hc : c ≠ eqChar := by
        rintro rfl
        revert hsign
        decide
      have hcs : eqChar ∈ cs := by
        rcases List.mem_cons.1 h with e | e
        · exact absurd e.symm hc
        · exact e
      simp only [hsign, if_true]
      by_cases hnil : cs = []
      · simp [hnil]
      · simp [hnil, parseDigits_none cs 0 ⟨eqChar, hcs, hd⟩]
    · simp only [hsign, if_false, Bool.false_eq_true]
      simp [parseDigits_none (c :: cs) 0 ⟨eqChar, h, hd⟩]

/-- Appending tokens to a list whose job name is complete leaves the job-name
part as it was. -/
theorem nameState_append (p ts : List Str) (hp : p ≠ [])
    (hclosed : (nameState p).inQuotes = false) :
    nameState (p ++ ts) = ⟨(nameState p).parameters ++ ts, (nameState p).jobNameParts,
      (nameState p).paramIndex, false⟩ := by
  have sh := nameState_shape p hp
  generalize nameState p = s at sh hclosed
  cases sh with
  | plain t rest h => exact nameState_plain t (rest ++ ts) h
  | quoted b rest => exact nameState_quoted b (rest ++ ts)
  | close a mid b post ha hmid =>
    have h := nameState_close a mid b (post ++ ts) ha hmid
    simp only [List.cons_append, List.append_assoc] at h ⊢
    exact h
  | unclosed a rest ha hrest => exact Bool.noConfusion hclosed

theorem afterName_append (p ts : List Str) (hp : p ≠ [])
    (hclosed : (nameState p).inQuotes = false) :
    afterName (p ++ ts) = afterName p ++ ts := by
  unfold afterName
  rw [nameState_append p ts hp hclosed]
  exact List.drop_append_of_le_length (nameState_frame p hp).2.1

/-- After a complete job name, trailing tokens that all contain `=` only feed
the key=value loop: job name and build number are those of the prefix, and the
loop runs over tokens of the prefix followed by the trailing ones. -/
theorem run_append (p : List Str) (hp : p ≠ []) (hclosed : (nameState p).inQuotes = false) :
    ∃ X : List Str, ∀ ts : List Str, (∀ t ∈ ts, eqChar ∈ t) →
      (run (p ++ ts)).jobName = (run p).jobName ∧
      (run (p ++ ts)).buildNumber = (run p).buildNumber ∧
      (run (p ++ ts)).paramMap = foldParams (X ++ ts) none := by
  have hname : ∀ ts, (run (p ++ ts)).jobName = (run p).jobName := by
    intro ts
    have hne : p ++ ts ≠ [] := by simp [hp]
    rw [run_jobName _ hne, run_jobName _ hp, nameState_append p ts hp hclosed]
  cases hr : afterName p with
  | nil =>
    refine ⟨[], fun ts hts => ⟨hname ts, ?_, ?_⟩⟩
    · have hne : p ++ ts ≠ [] := by simp [hp]
      rw [run_buildNumber _ hne, run_buildNumber _ hp, afterName_append p ts hp hclosed, hr]
      cases ts with
      | nil => rfl
      | cons t ts => simp [isNumeric_of_mem_eq t (hts t (List.mem_cons_self _ _))]
    · have hne : p ++ ts ≠ [] := by simp [hp]
      have ha : afterName (p ++ ts) = ts := by
        rw [afterName_append p ts hp hclosed, hr]; rfl
      cases ts with
      | nil => rw [run_after_nil _ hne ha]; rfl
      | cons t ts =>
        rw [run_after_other _ hne t ts ha (isNumeric_of_mem_eq t (hts t (List.mem_cons_self _ _)))]
        rfl
  | cons d ds =>
    cases hn : isNumeric d with
    | true =>
      refine ⟨ds, fun ts _ => ⟨hname ts, ?_, ?_⟩⟩
      · have hne : p ++ ts ≠ [] := by simp [hp]
        rw [run_buildNumber _ hne, run_buildNumber _ hp, afterName_append p ts hp hclosed, hr]
        rfl
      · have hne : p ++ ts ≠ [] := by simp [hp]
        have ha : afterName (p ++ ts) = d :: (ds ++ ts) := by
          rw [afterName_append p ts hp hclosed, hr]; rfl
        rw [run_after_numeric _ hne d _ ha hn]
    | false =>
      refine ⟨d :: ds, fun ts _ => ⟨hname ts, ?_, ?_⟩⟩
      · have hne : p ++ ts ≠ [] := by simp [hp]
        rw [run_buildNumber _ hne, run_buildNumber _ hp, afterName_append p ts hp hclosed, hr]
        rfl
      · have hne : p ++ ts ≠ [] := by simp [hp]
        have ha : afterName (p ++ ts) = d :: (ds ++ ts) := by
          rw [afterName_append p ts hp hclosed, hr]; rfl
        rw [run_after_other _ hne d _ ha hn]
        rfl

/-- With pairwise distinct keys, the last token with key `k` is the only one. -/
theorem last_binding_iff_mem (ts : List Str) (hkeys : (ts.map keyOf).Nodup) (k v : Str) :
    (∃ pre t post, ts = pre ++ t :: post ∧ Binds t k v ∧ ∀ u ∈ post, ∀ w, ¬ Binds u k w) ↔
      ∃ t ∈ ts, Binds t k v := by
  constructor
  · rintro ⟨pre, t, post, rfl, hb, _⟩
    exact ⟨t, by simp, hb⟩
  · rintro ⟨t, ht, hb⟩
    obtain ⟨pre, post, rfl⟩ := List.append_of_mem ht
    refine ⟨pre, t, post, rfl, hb, ?_⟩
    intro u hu w hw
    rw [List.map_append, List.map_cons] at hkeys
    have hcons := (List.nodup_append.1 hkeys).2.1
    have hnot := (List.nodup_cons.1 hcons).1
    apply hnot
    rw [keyOf_binds hb, ← keyOf_binds hw]
    exact List.mem_map_of_mem keyOf hu

/-- The loop yields the same map on two orders of tokens with pairwise
distinct keys. -/
theorem foldParams_perm (ts ts₂ : List Str) (m : GoMap) (hperm : List.Perm ts ts₂)
    (hkeys : (ts.map keyOf).Nodup) : MapEq (foldParams ts m) (foldParams ts₂ m) := by
  have hkeys₂ : (ts₂.map keyOf).Nodup := ((hperm.map keyOf).nodup_iff).1 hkeys
  constructor
  · have h1 := foldParams_eq_none ts m
    have h2 := foldParams_eq_none ts₂ m
    have hiff : foldParams ts m = none ↔ foldParams ts₂ m = none := by
      rw [h1, h2]
      constructor
      · rintro ⟨hm, h⟩
        exact ⟨hm, fun t ht => h t (hperm.mem_iff.2 ht)⟩
      · rintro ⟨hm, h⟩
        exact ⟨hm, fun t ht => h t (hperm.mem_iff.1 ht)⟩
    cases hA : foldParams ts m with
    | none => rw [hiff.1 hA]
    | some a =>
      cases hB : foldParams ts₂ m with
      | none => rw [hiff.2 hB] at hA; exact Option.noConfusion hA
      | some b => rfl
  · intro k
    have hiff : ∀ v, mapGet (foldParams ts m) k = some v ↔
        mapGet (foldParams ts₂ m) k = some v := by
      intro v
      rw [mapGet_foldParams, mapGet_foldParams, last_binding_iff_mem ts hkeys,
        last_binding_iff_mem ts₂ hkeys₂]
      constructor
      · rintro (⟨t, ht, hb⟩ | ⟨hno, hm⟩)
        · exact Or.inl ⟨t, hperm.mem_iff.1 ht, hb⟩
        · exact Or.inr ⟨fun u hu => hno u (hperm.mem_iff.2 hu), hm⟩
      · rintro (⟨t, ht, hb⟩ | ⟨hno, hm⟩)
        · exact Or.inl ⟨t, hperm.mem_iff.2 ht, hb⟩
        · exact Or.inr ⟨fun u hu => hno u (hperm.mem_iff.1 hu), hm⟩
    cases hA : mapGet (foldParams ts m) k with
    | none =>
      cases hB : mapGet (foldParams ts₂ m) k with
      | none => rfl
      | some b => rw [(hiff b).2 hB] at hA; exact Option.noConfusion hA
    | some a => rw [(hiff a).1 hA]

/-! ## The claims -/

/-- C1: the boolean result of `parseBuildParameters` is false exactly for the
empty token list, and for the empty list the job name and the build number are
empty and the parameters map is nil. -/
theorem ok_false_iff_empty (tokens : List Str) :
    ((parseBuildParameters tokens).2.2.2 = false ↔ tokens = []) ∧
    parseBuildParameters [] = ([], [], none, false) := by
  refine ⟨⟨fun h => ?_, fun h => ?_⟩, rfl⟩
  · by_contra hne
    have hok : (parseBuildParameters tokens).2.2.2 = true := run_ok tokens hne
    rw [hok] at h
    exact Bool.noConfusion h
  · subst h
    rfl

/-- C2: when the first token opens a quote that it does not close itself and
`u`, at index `k = mid.length + 1`, is the first later token ending with a
quote, the job name is the single-space join of the first token without its
leading quote, the tokens in between, and `u` without its trailing quote;
build-number detection reads the token at index `k + 1`. -/
theorem quoted_span_job_name (t : Str) (mid : List Str) (u : Str) (post : List Str)
    (ht : hasPrefix t quote = true) (hopen : hasSuffix (t.drop 1) quote = false)
    (hmid : ∀ x ∈ mid, hasSuffix x quote = false) (hu : hasSuffix u quote = true) :
    (parseBuildParameters (t :: (mid ++ u :: post))).1
      = join (t.drop 1 :: (mid ++ [u.dropLast])) space ∧
    (run (t :: (mid ++ u :: post))).nameEnd = mid.length + 2 ∧
    (parseBuildParameters (t :: (mid ++ u :: post))).2.1
      = (match post with
        | [] => []
        | d :: _ => if isNumeric d then d else []) := by
  have hne : t :: (mid ++ u :: post) ≠ [] := List.cons_ne_nil _ _
  have hs : nameState (t :: (mid ++ u :: post)) =
      ⟨t.drop 1 :: (mid ++ u.dropLast :: post), t.drop 1 :: (mid ++ [u.dropLast]),
        mid.length + 2, false⟩ := by
    have h := nameState_close (t.drop 1) mid u.dropLast post hopen hmid
    rw [← quoted_shape t ht, ← closing_shape u hu] at h
    exact h
  have hafter : afterName (t :: (mid ++ u :: post)) = post := by
    unfold afterName
    rw [hs]
    show List.drop (mid.length + 1 + 1) (t :: (mid ++ u :: post)) = post
    rw [List.drop_succ_cons, List.drop_append_eq_append_drop]
    simp
  refine ⟨?_, ?_, ?_⟩
  · show (run _).jobName = _
    rw [run_jobName _ hne, hs]
  · rw [run_nameEnd _ hne, hs]
  · show (run _).buildNumber = _
    rw [run_buildNumber _ hne, hafter]

/-- Witness of C2: the tokens of a quoted job name with two blanks, then 22. -/
theorem quoted_span_job_name_witness :
    (parseBuildParameters
        ((quote ++ lit "jobname") :: ([lit "with"] ++ (lit "spaces" ++ quote) :: [lit "22"]))).1
      = join (lit "jobname" :: ([lit "with"] ++ [lit "spaces"])) space ∧
    (run ((quote ++ lit "jobname") :: ([lit "with"] ++ (lit "spaces" ++ quote) :: [lit "22"]))).nameEnd
      = 3 ∧
    (parseBuildParameters
        ((quote ++ lit "jobname") :: ([lit "with"] ++ (lit "spaces" ++ quote) :: [lit "22"]))).2.1
      = lit "22" :=
  quoted_span_job_name (quote ++ lit "jobname") [lit "with"] (lit "spaces" ++ quote) [lit "22"]
    (by decide) (by decide) (by decide) (by decide)

/-- C3, as stated, fails: the one-character token holding just a quote starts
and ends with a quote, yet it opens a quoted span, the next token is consumed
too and joins the job name. -/
theorem lone_quote_opens_span :
    hasPrefix quote quote = true ∧ hasSuffix quote quote = true ∧
    (run [quote, lit "x"]).nameEnd = 2 ∧
    (parseBuildParameters [quote, lit "x"]).1 = space ++ lit "x" ∧
    (parseBuildParameters [quote, lit "x"]).1 ≠ trimSuffix (trimPrefix quote quote) quote := by
  decide

/-- C3, amended: when the first token starts with a quote and what is left
after removing that quote still ends with a quote, the job name is that token
without its leading and its trailing quote, whatever the later tokens are, and
exactly one token is consumed for it. -/
theorem quoted_single_token_job_name (t : Str) (rest : List Str)
    (ht : hasPrefix t quote = true) (hclosed : hasSuffix (t.drop 1) quote = true) :
    (parseBuildParameters (t :: rest)).1 = (t.drop 1).dropLast ∧
    (run (t :: rest)).nameEnd = 1 := by
  have hne : t :: rest ≠ [] := List.cons_ne_nil _ _
  have hs : nameState (t :: rest) = ⟨(t.drop 1).dropLast :: rest, [(t.drop 1).dropLast], 1, false⟩ := by
    have h := nameState_quoted (t.drop 1).dropLast rest
    rw [← closing_shape _ hclosed, ← quoted_shape t ht] at h
    exact h
  refine ⟨?_, ?_⟩
  · show (run _).jobName = _
    rw [run_jobName _ hne, hs]
    rfl
  · rw [run_nameEnd _ hne, hs]

/-- Witness of C3 amended: a quoted job name in one token, then two more tokens. -/
theorem quoted_single_token_job_name_witness :
    (parseBuildParameters
        ((quote ++ lit "folder/jobname" ++ quote) :: [lit "22", lit "k=v"])).1
      = ((quote ++ lit "folder/jobname" ++ quote).drop 1).dropLast ∧
    (run ((quote ++ lit "folder/jobname" ++ quote) :: [lit "22", lit "k=v"])).nameEnd = 1 :=
  quoted_single_token_job_name (quote ++ lit "folder/jobname" ++ quote) [lit "22", lit "k=v"]
    (by decide) (by decide)

/-- C4: when the first token does not start with a quote, the job name is that
token unchanged and one token is consumed for it; the build number is read off
the second token, and build number and parameters are the same for any other
unquoted first token. -/
theorem plain_first_token_job_name (t : Str) (rest : List Str)
    (ht : hasPrefix t quote = false) :
    (parseBuildParameters (t :: rest)).1 = t ∧
    (run (t :: rest)).nameEnd = 1 ∧
    (parseBuildParameters (t :: rest)).2.1
      = (match rest with
        | [] => []
        | d :: _ => if isNumeric d then d else []) ∧
    ∀ t₂ : Str, hasPrefix t₂ quote = false →
      (parseBuildParameters (t₂ :: rest)).2.1 = (parseBuildParameters (t :: rest)).2.1 ∧
      (parseBuildParameters (t₂ :: rest)).2.2.1 = (parseBuildParameters (t :: rest)).2.2.1 := by
  have key : ∀ x : Str, hasPrefix x quote = false →
      (run (x :: rest)).jobName = x ∧ (run (x :: rest)).nameEnd = 1 ∧
      (run (x :: rest)).buildNumber
        = (match rest with
          | [] => []
          | d :: _ => if isNumeric d then d else []) ∧
      (run (x :: rest)).paramMap
        = foldParams (match rest with
            | [] => []
            | d :: ds => if isNumeric d then ds else d :: ds) none := by
    intro x hx
    have hne : x :: rest ≠ [] := List.cons_ne_nil _ _
    have hs := nameState_plain x rest hx
    have hafter : afterName (x :: rest) = rest := by
      unfold afterName
      rw [hs]
      rfl
    have hend : (run (x :: rest)).nameEnd = 1 := by rw [run_nameEnd _ hne, hs]
    refine ⟨?_, hend, ?_, ?_⟩
    · rw [run_jobName _ hne, hs]
      rfl
    · rw [run_buildNumber _ hne, hafter]
    · rw [run_paramMap, run_paramStart _ hne, hafter, hend]
      cases rest with
      | nil => rfl
      | cons d ds => cases hd : isNumeric d <;> simp [hd]
  obtain ⟨h1, h2, h3, h4⟩ := key t ht
  refine ⟨h1, h2, h3, ?_⟩
  intro t₂ ht₂
  obtain ⟨_, _, g3, g4⟩ := key t₂ ht₂
  exact ⟨g3.trans h3.symm, g4.trans h4.symm⟩

/-- Witness of C4: a job in a folder, a build number and one parameter. -/
theorem plain_first_token_job_name_witness :
    (parseBuildParameters (lit "folder/job=1" :: [lit "22", lit "k=v"])).1 = lit "folder/job=1" ∧
    (run (lit "folder/job=1" :: [lit "22", lit "k=v"])).nameEnd = 1 ∧
    (parseBuildParameters (lit "folder/job=1" :: [lit "22", lit "k=v"])).2.1 = lit "22" ∧
    ∀ t₂ : Str, hasPrefix t₂ quote = false →
      (parseBuildParameters (t₂ :: [lit "22", lit "k=v"])).2.1
        = (parseBuildParameters (lit "folder/job=1" :: [lit "22", lit "k=v"])).2.1 ∧
      (parseBuildParameters (t₂ :: [lit "22", lit "k=v"])).2.2.1
        = (parseBuildParameters (lit "folder/job=1" :: [lit "22", lit "k=v"])).2.2.1 :=
  plain_first_token_job_name (lit "folder/job=1") [lit "22", lit "k=v"] (by decide)

/-! ### Build number -/

theorem isDigit_bounds (c : Char) (h : c.isDigit = true) : 48 ≤ c.toNat ∧ c.toNat ≤ 57 := by
  simp only [Char.isDigit, Bool.and_eq_true, decide_eq_true_eq, ge_iff_le] at h
  obtain ⟨h1, h2⟩ := h
  rw [UInt32.le_def] at h1 h2
  exact ⟨h1, h2⟩

theorem digitVal_of_isDigit (c : Char) (h : c.isDigit = true) :
    digitVal c = some (c.toNat - 48) := by
  simp [digitVal, isDigit_bounds c h]

theorem parseDigits_of_digits (d : Str) :
    ∀ acc : Nat, (∀ c ∈ d, c.isDigit = true) →
      parseDigits d acc = some (d.foldl (fun n c => n * 10 + (c.toNat - 48)) acc) := by
  induction d with
  | nil => intro acc _; rfl
  | cons c cs ih =>
    intro acc h
    rw [parseDigits, digitVal_of_isDigit c (h c (List.mem_cons_self _ _))]
    exact ih _ (fun x hx => h x (List.mem_cons_of_mem _ hx))

/-- The digit strings `strconv.Atoi` takes: those whose value fits an `int`. -/
theorem isNumeric_of_digits (d : Str) (hne : d ≠ []) (hdig : ∀ c ∈ d, c.isDigit = true)
    (hfit : decimal d < 2 ^ (intSize - 1)) : isNumeric d = true := by
  obtain ⟨c, cs, rfl⟩ := List.exists_cons_of_ne_nil hne
  have hc := isDigit_bounds c (hdig c (List.mem_cons_self _ _))
  have h45 : (c == Char.ofNat 45) = false := by
    rw [beq_eq_false_iff_ne]
    rintro rfl
    revert hc
    decide
  have h43 : (c == Char.ofNat 43) = false := by
    rw [beq_eq_false_iff_ne]
    rintro rfl
    revert hc
    decide
  have hp := parseDigits_of_digits (c :: cs) 0 hdig
  have hlt : ¬ (2 ^ (intSize - 1) ≤ decimal (c :: cs)) := by omega
  unfold isNumeric atoi
  simp only [h45, h43, Bool.or_self, Bool.false_eq_true, if_false, hp]
  simp [decimal] at hlt
  simp [hlt]

/-- A digit string beyond the range of `int` is an error for `strconv.Atoi`. -/
theorem isNumeric_of_digits_large (d : Str) (hdig : ∀ c ∈ d, c.isDigit = true)
    (hbig : 2 ^ (intSize - 1) ≤ decimal d) : isNumeric d = false := by
  cases d with
  | nil => rfl
  | cons c cs =>
    have hc := isDigit_bounds c (hdig c (List.mem_cons_self _ _))
    have h45 : (c == Char.ofNat 45) = false := by
      rw [beq_eq_false_iff_ne]
      rintro rfl
      revert hc
      decide
    have h43 : (c == Char.ofNat 43) = false := by
      rw [beq_eq_false_iff_ne]
      rintro rfl
      revert hc
      decide
    have hp := parseDigits_of_digits (c :: cs) 0 hdig
    unfold isNumeric atoi
    simp only [h45, h43, Bool.or_self, Bool.false_eq_true, if_false, hp]
    simp [decimal] at hbig
    simp [hbig]

/-- C5, as stated, fails: the 19-digit token 9223372036854775808 (2^63)
follows the job name, `strconv.Atoi` reports a range error for it, and the
build number comes back empty. -/
theorem build_number_out_of_range :
    (run [lit "job", lit "9223372036854775808"]).nameEnd = 1 ∧
    lit "9223372036854775808" ≠ [] ∧
    (∀ c ∈ lit "9223372036854775808", c.isDigit = true) ∧
    (parseBuildParameters [lit "job", lit "9223372036854775808"]).2.1 = [] ∧
    (parseBuildParameters [lit "job", lit "9223372036854775808"]).2.1
      ≠ lit "9223372036854775808" := by
  decide

/-- C5, amended: when the token right after the job name is a non-empty string
of ASCII digits, of any length, whose value is below 2^63 (it fits Go's `int`),
the build number is that token verbatim, leading zeros kept, and the key=value
loop starts after it. -/
theorem build_number_verbatim (tokens : List Str) (d : Str)
    (hpos : (run tokens).nameEnd < tokens.length)
    (hd : at_ tokens (run tokens).nameEnd = d)
    (hne : d ≠ []) (hdig : ∀ c ∈ d, c.isDigit = true)
    (hfit : decimal d < 2 ^ (intSize - 1)) :
    (parseBuildParameters tokens).2.1 = d ∧
    (run tokens).paramStart = (run tokens).nameEnd + 1 := by
  have hnil : tokens ≠ [] := by
    rintro rfl
    simp at hpos
  have hnum := isNumeric_of_digits d hne hdig hfit
  rw [run_nameEnd _ hnil] at hpos hd
  have hafter : afterName tokens = d :: tokens.drop ((nameState tokens).paramIndex + 1) := by
    unfold afterName
    rw [List.drop_eq_getElem_cons hpos, ← at_of_lt _ _ hpos, hd]
  refine ⟨?_, ?_⟩
  · show (run tokens).buildNumber = d
    rw [run_buildNumber _ hnil, hafter]
    simp [hnum]
  · rw [run_paramStart _ hnil, hafter]
    simp [hnum]

/-- Witness of C5 amended: a 27-character build number with leading zeros. -/
theorem build_number_verbatim_witness :
    (parseBuildParameters [lit "job", lit "000000000000000000000000022", lit "k=v"]).2.1
      = lit "000000000000000000000000022" ∧
    (run [lit "job", lit "000000000000000000000000022", lit "k=v"]).paramStart
      = (run [lit "job", lit "000000000000000000000000022", lit "k=v"]).nameEnd + 1 :=
  build_number_verbatim [lit "job", lit "000000000000000000000000022", lit "k=v"]
    (lit "000000000000000000000000022") (by decide) (by decide) (by decide) (by decide)
    (by decide)

/-- C6: when no token follows the job name, or the one that does is not
accepted by `isNumeric`, the build number is empty whatever comes later and no
token is consumed for it: the key=value loop starts right after the job name,
so a token `k=v` in that place puts `k` into the map, with value `v` unless a
later token has the same key. -/
theorem no_build_number (tokens : List Str) (hne : tokens ≠ [])
    (h : tokens.length ≤ (run tokens).nameEnd ∨
      isNumeric (at_ tokens (run tokens).nameEnd) = false) :
    (parseBuildParameters tokens).2.1 = [] ∧
    (run tokens).paramStart = (run tokens).nameEnd ∧
    ∀ k v, (run tokens).nameEnd < tokens.length →
      Binds (at_ tokens (run tokens).nameEnd) k v →
      (mapGet (parseBuildParameters tokens).2.2.1 k).isSome = true ∧
      ((∀ u ∈ tokens.drop ((run tokens).nameEnd + 1), ∀ w, ¬ Binds u k w) →
        mapGet (parseBuildParameters tokens).2.2.1 k = some v) := by
  rw [run_nameEnd _ hne] at h ⊢
  cases hr : afterName tokens with
  | nil =>
    have hlen : tokens.length ≤ (nameState tokens).paramIndex := by
      have := congrArg List.length hr
      simp [afterName] at this
      omega
    refine ⟨?_, ?_, ?_⟩
    · show (run tokens).buildNumber = []
      rw [run_after_nil tokens hne hr]
    · rw [run_after_nil tokens hne hr]
    · intro k v hlt
      omega
  | cons t ts =>
    have hr₂ : tokens.drop (nameState tokens).paramIndex = t :: ts := hr
    have hat : at_ tokens (nameState tokens).paramIndex = t := at_eq_head_drop _ _ _ _ hr₂
    have hlt : (nameState tokens).paramIndex < tokens.length := by
      have := congrArg List.length hr₂
      simp at this
      omega
    have hn : isNumeric t = false := by
      rcases h with h | h
      · omega
      · rw [hat] at h; exact h
    have hts : tokens.drop ((nameState tokens).paramIndex + 1) = ts := by
      rw [← List.drop_drop, hr₂]
      rfl
    have hmap : (parseBuildParameters tokens).2.2.1 = foldParams (t :: ts) none := by
      show (run tokens).paramMap = _
      rw [run_after_other tokens hne t ts hr hn]
    refine ⟨?_, ?_, ?_⟩
    · show (run tokens).buildNumber = []
      rw [run_after_other tokens hne t ts hr hn]
    · rw [run_after_other tokens hne t ts hr hn]
    · intro k v _ hb
      rw [hat] at hb
      rw [hmap, hts]
      constructor
      · obtain ⟨pre, u, post, w, e, hw, hpost⟩ :=
          exists_last_binding (t :: ts) k ⟨t, List.mem_cons_self _ _, v, hb⟩
        have := (mapGet_foldParams (t :: ts) none k w).2 (Or.inl ⟨pre, u, post, e, hw, hpost⟩)
        rw [this]
        rfl
      · intro hlater
        exact (mapGet_foldParams (t :: ts) none k v).2 (Or.inl ⟨[], t, ts, rfl, hb, hlater⟩)

/-- Witness of C6: a parameter in the build-number place, a number after it. -/
theorem no_build_number_witness :
    (parseBuildParameters [lit "job", lit "a=1", lit "22"]).2.1 = [] ∧
    (run [lit "job", lit "a=1", lit "22"]).paramStart
      = (run [lit "job", lit "a=1", lit "22"]).nameEnd ∧
    ∀ k v, (run [lit "job", lit "a=1", lit "22"]).nameEnd
        < [lit "job", lit "a=1", lit "22"].length →
      Binds (at_ [lit "job", lit "a=1", lit "22"] (run [lit "job", lit "a=1", lit "22"]).nameEnd)
        k v →
      (mapGet (parseBuildParameters [lit "job", lit "a=1", lit "22"]).2.2.1 k).isSome = true ∧
      ((∀ u ∈ [lit "job", lit "a=1", lit "22"].drop
            ((run [lit "job", lit "a=1", lit "22"]).nameEnd + 1), ∀ w, ¬ Binds u k w) →
        mapGet (parseBuildParameters [lit "job", lit "a=1", lit "22"]).2.2.1 k = some v) :=
  no_build_number [lit "job", lit "a=1", lit "22"] (by decide) (Or.inr (by decide))

/-- C7: a key `k` of the returned parameters map carries the value `v` exactly
when, among the tokens after the job name and build number, the last one of
the form `k=...` (split at its first `=`) is `k=v`; the keys of the map are
exactly the keys of those tokens. -/
theorem parameters_map_content (tokens : List Str) (k v : Str) :
    (mapGet (parseBuildParameters tokens).2.2.1 k = some v ↔
      ∃ pre t post, tokens.drop (run tokens).paramStart = pre ++ t :: post ∧
        Binds t k v ∧ ∀ u ∈ post, ∀ w, ¬ Binds u k w) ∧
    ((mapGet (parseBuildParameters tokens).2.2.1 k).isSome = true ↔
      ∃ t ∈ tokens.drop (run tokens).paramStart, ∃ w, Binds t k w) := by
  have hmap : (parseBuildParameters tokens).2.2.1
      = foldParams (tokens.drop (run tokens).paramStart) none := run_paramMap tokens
  have hchar : ∀ w, mapGet (parseBuildParameters tokens).2.2.1 k = some w ↔
      ∃ pre t post, tokens.drop (run tokens).paramStart = pre ++ t :: post ∧
        Binds t k w ∧ ∀ u ∈ post, ∀ w₂, ¬ Binds u k w₂ := by
    intro w
    rw [hmap, mapGet_foldParams]
    constructor
    · rintro (h | ⟨_, h⟩)
      · exact h
      · exact absurd h (by simp [mapGet])
    · exact Or.inl
  refine ⟨hchar v, ?_⟩
  constructor
  · intro h
    obtain ⟨w, hw⟩ := Option.isSome_iff_exists.1 h
    obtain ⟨pre, t, post, e, hb, _⟩ := (hchar w).1 hw
    exact ⟨t, by rw [e]; simp, w, hb⟩
  · intro h
    obtain ⟨pre, t, post, w, e, hb, hpost⟩ := exists_last_binding _ k h
    rw [(hchar w).2 ⟨pre, t, post, e, hb, hpost⟩]
    rfl

/-- C8: for a non-empty token list the parameters map is nil exactly when no
token after the job name and build number contains `=`; the tokens without `=`
there change nothing (the map is what the loop yields on the others alone) and
the call still reports success. -/
theorem parameters_nil_iff (tokens : List Str) (hne : tokens ≠ []) :
    ((parseBuildParameters tokens).2.2.1 = none ↔
      ∀ t ∈ tokens.drop (run tokens).paramStart, eqChar ∉ t) ∧
    (parseBuildParameters tokens).2.2.1
      = foldParams ((tokens.drop (run tokens).paramStart).filter
          (fun t => contains t eqSign)) none ∧
    (parseBuildParameters tokens).2.2.2 = true := by
  have hmap : (parseBuildParameters tokens).2.2.1
      = foldParams (tokens.drop (run tokens).paramStart) none := run_paramMap tokens
  refine ⟨?_, ?_, run_ok tokens hne⟩
  · rw [hmap, foldParams_eq_none]
    simp
  · rw [foldParams_filter]
    exact hmap

/-- Witness of C8: a build number followed by a token without `=`. -/
theorem parameters_nil_iff_witness :
    ((parseBuildParameters [lit "jobname", lit "22", lit "extra-data"]).2.2.1 = none ↔
      ∀ t ∈ [lit "jobname", lit "22", lit "extra-data"].drop
        (run [lit "jobname", lit "22", lit "extra-data"]).paramStart, eqChar ∉ t) ∧
    (parseBuildParameters [lit "jobname", lit "22", lit "extra-data"]).2.2.1
      = foldParams (([lit "jobname", lit "22", lit "extra-data"].drop
          (run [lit "jobname", lit "22", lit "extra-data"]).paramStart).filter
          (fun t => contains t eqSign)) none ∧
    (parseBuildParameters [lit "jobname", lit "22", lit "extra-data"]).2.2.2 = true :=
  parameters_nil_iff [lit "jobname", lit "22", lit "extra-data"] (by decide)

/-- C9: when the first token opens a quote that it does not close itself and
no later token ends with a quote, every token goes into the job name (joined
by single blanks, the first without its leading quote), the build number is
empty, the parameters map is nil and the call reports success. -/
theorem unclosed_quote_takes_all (t : Str) (rest : List Str)
    (ht : hasPrefix t quote = true) (hopen : hasSuffix (t.drop 1) quote = false)
    (hrest : ∀ x ∈ rest, hasSuffix x quote = false) :
    parseBuildParameters (t :: rest) = (join (t.drop 1 :: rest) space, [], none, true) := by
  have hne : t :: rest ≠ [] := List.cons_ne_nil _ _
  have hs : nameState (t :: rest) = ⟨t.drop 1 :: rest, t.drop 1 :: rest, rest.length + 1, true⟩ := by
    have h := nameState_open (t.drop 1) rest hopen hrest
    rw [← quoted_shape t ht] at h
    exact h
  have hafter : afterName (t :: rest) = [] := by
    unfold afterName
    rw [hs]
    simp
  unfold parseBuildParameters
  rw [run_after_nil _ hne hafter, hs]

/-- Witness of C9: an unclosed quote followed by a number and a parameter. -/
theorem unclosed_quote_takes_all_witness :
    parseBuildParameters ((quote ++ lit "job") :: [lit "22", lit "k=v"])
      = (join ((quote ++ lit "job").drop 1 :: [lit "22", lit "k=v"]) space, [], none, true) :=
  unclosed_quote_takes_all (quote ++ lit "job") [lit "22", lit "k=v"]
    (by decide) (by decide) (by decide)

/-- C10, as stated, fails: two trailing tokens with the same key, in the two
orders, leave different values under that key (the later token wins). -/
theorem permuted_duplicate_key_differs :
    List.Perm [lit "a=1", lit "a=2"] [lit "a=2", lit "a=1"] ∧
    (∀ t ∈ [lit "a=1", lit "a=2"], contains t eqSign = true) ∧
    mapGet (parseBuildParameters ([lit "job"] ++ [lit "a=1", lit "a=2"])).2.2.1 (lit "a")
      = some (lit "2") ∧
    mapGet (parseBuildParameters ([lit "job"] ++ [lit "a=2", lit "a=1"])).2.2.1 (lit "a")
      = some (lit "1") ∧
    ¬ MapEq (parseBuildParameters ([lit "job"] ++ [lit "a=1", lit "a=2"])).2.2.1
        (parseBuildParameters ([lit "job"] ++ [lit "a=2", lit "a=1"])).2.2.1 :=
  ⟨List.Perm.swap _ _ _, by decide, by decide, by decide,
    fun h => absurd (h.2 (lit "a")) (by decide)⟩

/-- C10, amended: after a non-empty prefix whose job name is complete (no
quote left open), with or without a build number, trailing tokens that each
contain `=` and whose keys (the texts before the first `=`) are pairwise
distinct give the same job name, the same build number and the same parameters
map in every order. -/
theorem permuted_parameters_same_result (p ts ts₂ : List Str)
    (hp : p ≠ []) (hclosed : (run p).inQuotes = false)
    (hperm : List.Perm ts ts₂)
    (heq : ∀ t ∈ ts, contains t eqSign = true)
    (hkeys : (ts.map keyOf).Nodup) :
    (parseBuildParameters (p ++ ts)).1 = (parseBuildParameters (p ++ ts₂)).1 ∧
    (parseBuildParameters (p ++ ts)).2.1 = (parseBuildParameters (p ++ ts₂)).2.1 ∧
    MapEq (parseBuildParameters (p ++ ts)).2.2.1 (parseBuildParameters (p ++ ts₂)).2.2.1 := by
  have hclosed₂ : (nameState p).inQuotes = false := by
    have hlen0 : ¬ p.length = 0 := fun e => hp (List.length_eq_zero.1 e)
    simpa [run, hlen0] using hclosed
  have hmem : ∀ t ∈ ts, eqChar ∈ t := fun t ht => (contains_eqSign_iff t).1 (heq t ht)
  have hmem₂ : ∀ t ∈ ts₂, eqChar ∈ t := fun t ht => hmem t (hperm.mem_iff.2 ht)
  obtain ⟨X, hX⟩ := run_append p hp hclosed₂
  obtain ⟨a1, a2, a3⟩ := hX ts hmem
  obtain ⟨b1, b2, b3⟩ := hX ts₂ hmem₂
  refine ⟨a1.trans b1.symm, a2.trans b2.symm, ?_⟩
  show MapEq (run (p ++ ts)).paramMap (run (p ++ ts₂)).paramMap
  rw [a3, b3, foldParams_append, foldParams_append]
  exact foldParams_perm ts ts₂ _ hperm hkeys

/-- Witness of C10 amended: a job, a build number, and two parameters swapped. -/
theorem permuted_parameters_same_result_witness :
    (parseBuildParameters ([lit "job", lit "22"] ++ [lit "a=1", lit "b=2"])).1
      = (parseBuildParameters ([lit "job", lit "22"] ++ [lit "b=2", lit "a=1"])).1 ∧
    (parseBuildParameters ([lit "job", lit "22"] ++ [lit "a=1", lit "b=2"])).2.1
      = (parseBuildParameters ([lit "job", lit "22"] ++ [lit "b=2", lit "a=1"])).2.1 ∧
    MapEq (parseBuildParameters ([lit "job", lit "22"] ++ [lit "a=1", lit "b=2"])).2.2.1
      (parseBuildParameters ([lit "job", lit "22"] ++ [lit "b=2", lit "a=1"])).2.2.1 :=
  permuted_parameters_same_result [lit "job", lit "22"] [lit "a=1", lit "b=2"]
    [lit "b=2", lit "a=1"] (by decide) (by decide) (List.Perm.swap _ _ _) (by decide)
    (by decide)

/-! ### Reparsing the job name -/

/-- C11, as stated, fails: the token made of two quotes and an x leaves an
open quote and gives the job name quote-x, which has no blank; parsed again as
a single token it loses its leading quote. -/
theorem requoted_leading_quote_lost :
    [quote ++ quote ++ lit "x"] ≠ [] ∧
    (parseBuildParameters [quote ++ quote ++ lit "x"]).1 = quote ++ lit "x" ∧
    requote (quote ++ lit "x") = quote ++ lit "x" ∧
    (parseBuildParameters [requote (parseBuildParameters [quote ++ quote ++ lit "x"]).1]).1
      = lit "x" ∧
    (parseBuildParameters [requote (parseBuildParameters [quote ++ quote ++ lit "x"]).1]).1
      ≠ (parseBuildParameters [quote ++ quote ++ lit "x"]).1 := by
  decide

/-- C11, amended: for a token list (non-empty or not) whose job name `j`
contains a blank or does not start with a double-quote, parsing the single
token made from `j` (wrapped in double-quotes if it contains a blank, `j`
itself otherwise) returns the job name `j` again. -/
theorem requoted_job_name_reparses (tokens : List Str)
    (hj : contains (parseBuildParameters tokens).1 space = true ∨
      hasPrefix (parseBuildParameters tokens).1 quote = false) :
    (parseBuildParameters [requote (parseBuildParameters tokens).1]).1
      = (parseBuildParameters tokens).1 := by
  generalize (parseBuildParameters tokens).1 = j at hj
  cases hc : contains j space with
  | true =>
    have hq : requote j = quoteChar :: (j ++ quote) := by
      simp [requote, hc, quote]
    show (run [requote j]).jobName = j
    rw [hq, run_jobName _ (List.cons_ne_nil _ _), nameState_quoted]
    rfl
  | false =>
    have hp : hasPrefix j quote = false := by
      rcases hj with h | h
      · rw [hc] at h; exact Bool.noConfusion h
      · exact h
    have hq : requote j = j := by simp [requote, hc]
    show (run [requote j]).jobName = j
    rw [hq, run_jobName _ (List.cons_ne_nil _ _), nameState_plain j [] hp]
    rfl

/-- Witness of C11 amended: a quoted job name spread over three tokens. -/
theorem requoted_job_name_reparses_witness :
    (parseBuildParameters
        [requote (parseBuildParameters
          [quote ++ lit "jobname", lit "with", lit "spaces" ++ quote, lit "22"]).1]).1
      = (parseBuildParameters
          [quote ++ lit "jobname", lit "with", lit "spaces" ++ quote, lit "22"]).1 :=
  requoted_job_name_reparses
    [quote ++ lit "jobname", lit "with", lit "spaces" ++ quote, lit "22"]
    (Or.inl (by decide))

/-! ### The caller's slice -/

theorem at_cons_succ (x : Str) (l : List Str) (j : Nat) : at_ (x :: l) (j + 1) = at_ l j := by
  simp [at_]

theorem at_append_ne (mid : List Str) (x y : Str) (post : List Str) :
    ∀ j : Nat, j ≠ mid.length → at_ (mid ++ x :: post) j = at_ (mid ++ y :: post) j := by
  induction mid with
  | nil =>
    intro j hj
    obtain ⟨i, rfl⟩ : ∃ i, j = i + 1 := ⟨j - 1, by simp at hj; omega⟩
    simp [at_]
  | cons m ms ih =>
    intro j hj
    cases j with
    | zero => simp [at_]
    | succ i =>
      simp only [List.cons_append, at_cons_succ]
      exact ih i (by simp at hj; omega)

theorem run_parameters (tokens : List Str) (h : tokens ≠ []) :
    (run tokens).parameters = (nameState tokens).parameters := by
  have hlen0 : ¬ tokens.length = 0 := fun e => h (List.length_eq_zero.1 e)
  simp [run, hlen0]

theorem run_inQuotes (tokens : List Str) (h : tokens ≠ []) :
    (run tokens).inQuotes = (nameState tokens).inQuotes := by
  have hlen0 : ¬ tokens.length = 0 := fun e => h (List.length_eq_zero.1 e)
  simp [run, hlen0]

/-- C12, as stated, fails: the call strips the quotes of a quoted job name in
the caller's slice itself. -/
theorem call_rewrites_quoted_token :
    (run [quote ++ lit "jobname" ++ quote, lit "22"]).parameters = [lit "jobname", lit "22"] ∧
    (run [quote ++ lit "jobname" ++ quote, lit "22"]).parameters
      ≠ [quote ++ lit "jobname" ++ quote, lit "22"] := by
  decide

/-- C12, amended: the call keeps the length of the caller's slice and changes
at most two of its elements. Element 0 is rewritten only when it starts with a
double-quote: it loses that quote, and its trailing quote too if it then ends
with one. The token that closes a quoted span loses its trailing quote. Every
other element is as before; in particular a list whose first token does not
start with a double-quote is left untouched. -/
theorem slice_after_call (tokens : List Str) :
    (run tokens).parameters.length = tokens.length ∧
    (∀ i, 0 < i → (i + 1 ≠ (run tokens).nameEnd ∨ (run tokens).inQuotes = true) →
      at_ (run tokens).parameters i = at_ tokens i) ∧
    (∀ i, 0 < i → i + 1 = (run tokens).nameEnd → (run tokens).inQuotes = false →
      at_ (run tokens).parameters i = trimSuffix (at_ tokens i) quote) ∧
    (hasPrefix (at_ tokens 0) quote = false → (run tokens).parameters = tokens) ∧
    (hasPrefix (at_ tokens 0) quote = true →
      at_ (run tokens).parameters 0
        = if hasSuffix (trimPrefix (at_ tokens 0) quote) quote
          then trimSuffix (trimPrefix (at_ tokens 0) quote) quote
          else trimPrefix (at_ tokens 0) quote) := by
  by_cases hne : tokens = []
  · subst hne
    refine ⟨rfl, fun _ _ _ => rfl, ?_, fun _ => rfl, ?_⟩
    · intro i hi h
      have : (run ([] : List Str)).nameEnd = 0 := rfl
      omega
    · intro h
      exact absurd h (by decide)
  · rw [run_parameters _ hne, run_nameEnd _ hne, run_inQuotes _ hne]
    have sh := nameState_shape tokens hne
    generalize nameState tokens = s at sh
    cases sh with
    | plain t rest hp =>
      refine ⟨rfl, fun _ _ _ => rfl, ?_, fun _ => rfl, ?_⟩
      · intro i hi h
        simp at h
        omega
      · intro h
        have : hasPrefix t quote = true := h
        rw [hp] at this
        exact Bool.noConfusion this
    | quoted b rest =>
      refine ⟨rfl, ?_, ?_, ?_, ?_⟩
      · intro i hi _
        obtain ⟨j, rfl⟩ : ∃ j, i = j + 1 := ⟨i - 1, by omega⟩
        simp [at_cons_succ]
      · intro i hi h
        simp at h
        omega
      · intro h
        have : hasPrefix (quoteChar :: (b ++ quote)) quote = false := h
        rw [hasPrefix_quote_cons] at this
        exact Bool.noConfusion this
      · intro _
        show b = _
        have e : at_ ((quoteChar :: (b ++ quote)) :: rest) 0 = quoteChar :: (b ++ quote) := rfl
        rw [e, trimPrefix_quote_cons, hasSuffix_append, if_pos rfl, trimSuffix_append]
    | close a mid b post ha hmid =>
      refine ⟨by simp, ?_, ?_, ?_, ?_⟩
      · intro i hi h
        obtain ⟨j, rfl⟩ : ∃ j, i = j + 1 := ⟨i - 1, by omega⟩
        simp only [at_cons_succ]
        apply at_append_ne
        rcases h with h | h
        · simp at h
          omega
        · exact Bool.noConfusion h
      · intro i hi h _
        have hi₂ : i = mid.length + 1 := by
          simp at h
          omega
        subst hi₂
        simp only [at_cons_succ, at_append, trimSuffix_append]
      · intro h
        have : hasPrefix (quoteChar :: a) quote = false := h
        rw [hasPrefix_quote_cons] at this
        exact Bool.noConfusion this
      · intro _
        show a = _
        have e : at_ ((quoteChar :: a) :: (mid ++ (b ++ quote) :: post)) 0 = quoteChar :: a := rfl
        rw [e, trimPrefix_quote_cons, ha]
        rfl
    | unclosed a rest ha hrest =>
      refine ⟨rfl, ?_, ?_, ?_, ?_⟩
      · intro i hi _
        obtain ⟨j, rfl⟩ : ∃ j, i = j + 1 := ⟨i - 1, by omega⟩
        simp [at_cons_succ]
      · intro i hi _ h
        exact Bool.noConfusion h
      · intro h
        have : hasPrefix (quoteChar :: a) quote = false := h
        rw [hasPrefix_quote_cons] at this
        exact Bool.noConfusion this
      · intro _
        show a = _
        have e : at_ ((quoteChar :: a) :: rest) 0 = quoteChar :: a := rfl
        rw [e, trimPrefix_quote_cons, ha]
        rfl

/-! ### Padding -/

/-- What `unpad` does on a slice whose last byte is `p`. -/
theorem unpad_of_last (src : Bytes) (p : Nat) (hlast : src.getLast? = some p) :
    unpad src = if p > src.length then UnpadResult.error
      else UnpadResult.ok (src.take (src.length - p)) := by
  have hne : src ≠ [] := by
    rintro rfl
    simp at hlast
  have hpos : 0 < src.length := List.length_pos.2 hne
  have hidx : ((src.length : Int) - 1).toNat = src.length - 1 := by omega
  have hget : src.getD (src.length - 1) 0 = p := by
    rw [List.getD_eq_getElem?_getD, ← List.getLast?_eq_getElem?, hlast]
    rfl
  unfold unpad
  simp only [hidx, hget]
  rw [if_neg (by omega)]
  by_cases hp : p > src.length
  · rw [if_pos (by omega), if_pos hp]
  · rw [if_neg (by omega), if_neg (by omega), if_neg hp]
    have : ((src.length : Int) - (p : Int)).toNat = src.length - p := by omega
    rw [this]

theorem pad_eq (src : Bytes) :
    pad src = src ++ List.replicate (16 - src.length % 16) (16 - src.length % 16) := by
  have h : (16 - src.length % 16) % 256 = 16 - src.length % 16 := by omega
  simp only [pad, blockSize, h]

/-- C13: `unpad (pad src)` returns `src` without error for every byte
sequence, the empty one included; `pad` appends `n` bytes of value `n` for
some `n` from 1 to 16, and the padded length is a positive multiple of 16. -/
theorem unpad_pad (src : Bytes) :
    unpad (pad src) = UnpadResult.ok src ∧
    ∃ n, 1 ≤ n ∧ n ≤ 16 ∧ pad src = src ++ List.replicate n n ∧
      0 < (pad src).length ∧ (pad src).length % blockSize = 0 := by
  have hn1 : 1 ≤ 16 - src.length % 16 := by omega
  have hlen : (pad src).length = src.length + (16 - src.length % 16) := by
    rw [pad_eq]
    simp
  have hlast : (pad src).getLast? = some (16 - src.length % 16) := by
    rw [pad_eq, List.getLast?_append, List.getLast?_replicate, if_neg (by omega)]
    rfl
  refine ⟨?_, 16 - src.length % 16, hn1, by omega, pad_eq src, by omega, ?_⟩
  · rw [unpad_of_last _ _ hlast, if_neg (by omega), hlen]
    have : src.length + (16 - src.length % 16) - (16 - src.length % 16) = src.length := by omega
    rw [this, pad_eq, List.take_left]
  · rw [hlen]
    show (src.length + (16 - src.length % 16)) % 16 = 0
    omega

/-- C14: on a non-empty slice with last byte `p`, `unpad` makes no
out-of-range access, returns the error exactly when `p` exceeds the length,
and otherwise returns the first `len(src) - p` bytes; on the empty slice the
read of the last byte is out of range. -/
theorem unpad_nonempty (src : Bytes) (p : Nat) (hlast : src.getLast? = some p) :
    unpad src ≠ UnpadResult.outOfRange ∧
    (unpad src = UnpadResult.error ↔ p > src.length) ∧
    (p ≤ src.length → unpad src = UnpadResult.ok (src.take (src.length - p))) ∧
    unpad [] = UnpadResult.outOfRange := by
  rw [unpad_of_last src p hlast]
  refine ⟨?_, ?_, ?_, rfl⟩
  · by_cases hp : p > src.length
    · rw [if_pos hp]
      exact fun h => UnpadResult.noConfusion h
    · rw [if_neg hp]
      exact fun h => UnpadResult.noConfusion h
  · by_cases hp : p > src.length
    · rw [if_pos hp]
      exact ⟨fun _ => hp, fun _ => rfl⟩
    · rw [if_neg hp]
      exact ⟨fun h => UnpadResult.noConfusion h, fun h => absurd h hp⟩
  · intro hp
    rw [if_neg (by omega)]

/-- Witness of C14: four bytes, the last one asking to drop two. -/
theorem unpad_nonempty_witness :
    unpad [104, 105, 2, 2] ≠ UnpadResult.outOfRange ∧
    (unpad [104, 105, 2, 2] = UnpadResult.error ↔ 2 > [104, 105, 2, 2].length) ∧
    (2 ≤ [104, 105, 2, 2].length →
      unpad [104, 105, 2, 2] = UnpadResult.ok ([104, 105, 2, 2].take ([104, 105, 2, 2].length - 2))) ∧
    unpad [] = UnpadResult.outOfRange :=
  unpad_nonempty [104, 105, 2, 2] 2 rfl

end Jenkins
